import Mathlib

/-!
Shallow embedding of the DOOM-fire simulation (`doom_fire.py`).

Pixel intensities are Python integers, embedded as `ℤ`; grid indices and
dimensions are `ℕ`.  Each random draw made by the program is abstracted as a
function from the draw's loop index to the drawn value, universally
quantified in the theorems together with the bounds the library guarantees
(`random() * 2` truncated to an int lies in {0, 1}; `randint(a, b)` lies in
[a, b]).  Python's negative list indices `xs[-i]` are embedded as
`xs.length - i`, and the `try ... except IndexError` around the update body
as an explicit bound check, both faithful for the in-range situations the
program creates.
-/

/-- The color palette `PALETTE`: 37 RGB triples, index 0 to 36. -/
def PALETTE : List (ℕ × ℕ × ℕ) :=
  [(7, 7, 7), (31, 7, 7), (47, 15, 7), (71, 15, 7), (87, 23, 7), (103, 31, 7),
   (119, 31, 7), (143, 39, 7), (159, 47, 7), (175, 63, 7), (191, 71, 7),
   (199, 71, 7), (223, 79, 7), (223, 87, 7), (223, 87, 7), (215, 95, 7),
   (215, 95, 7), (215, 103, 15), (207, 111, 15), (207, 119, 15),
   (207, 127, 15), (207, 135, 23), (199, 135, 23), (199, 143, 23),
   (199, 151, 31), (191, 159, 31), (191, 159, 31), (191, 167, 39),
   (191, 167, 39), (191, 175, 47), (183, 175, 47), (183, 183, 47),
   (183, 183, 55), (207, 207, 111), (223, 223, 159), (239, 239, 199),
   (255, 255, 255)]

/-- The `Fire` object: `width`, `height`, the render scale `_pixel_size`
and the flat pixel list `pixels`. -/
structure Fire where
  width : ℕ
  height : ℕ
  pixel_size : ℕ
  pixels : List ℤ

/-- One iteration of the `for i in range(1, width+1): fire[-i] = randint(*intensity)`
loop of `Fire._create`, iterations `1 .. m` applied in order; `fire[-i]` is
index `length - i`. -/
def createLoop (draws : ℕ → ℤ) (fire : List ℤ) : ℕ → List ℤ
  | 0 => fire
  | m + 1 =>
      let p := createLoop draws fire m
      p.set (p.length - (m + 1)) (draws (m + 1))

/-- `Fire._create width height intensity`: a list of `width * height` zeros
whose last `width` entries are then overwritten with the draws
`randint(*intensity)` (abstracted as `draws`). -/
def Fire.create (width height : ℕ) (draws : ℕ → ℤ) : List ℤ :=
  createLoop draws (List.replicate (width * height) 0) width

/-- The body of `Fire.update` for loop index `i` with decay draw `d`:
read `pixels[i + width]` (skipping on `IndexError`), skip when
`i - decay < 0`, otherwise set `pixels[i - decay] = max(pixel_below - decay, 0)`. -/
def updateStep (width : ℕ) (d : ℕ) (pixels : List ℤ) (i : ℕ) : List ℤ :=
  if i + width < pixels.length then
    if (i : ℤ) - (d : ℤ) < 0 then pixels
    else pixels.set (i - d) (max (pixels.getD (i + width) 0 - (d : ℤ)) 0)
  else pixels

/-- The first `n` iterations of the `for i in range(width * height)` loop of
`Fire.update`, performed in place in ascending order of `i`. -/
def updatePass (width : ℕ) (decays : ℕ → ℕ) (pixels : List ℤ) : ℕ → List ℤ
  | 0 => pixels
  | n + 1 => updateStep width (decays n) (updatePass width decays pixels n) n

/-- `Fire.update`: run the pass over all `width * height` loop indices. -/
def Fire.update (f : Fire) (decays : ℕ → ℕ) : Fire :=
  { f with pixels := updatePass f.width decays f.pixels (f.width * f.height) }

/-- Modelled from the spec: the update step reading its below-value from the
snapshot `orig` of the pre-update grid instead of from the evolving list. -/
def snapshotStep (width : ℕ) (orig : List ℤ) (d : ℕ) (pixels : List ℤ) (i : ℕ) : List ℤ :=
  if i + width < orig.length then
    if (i : ℤ) - (d : ℤ) < 0 then pixels
    else pixels.set (i - d) (max (orig.getD (i + width) 0 - (d : ℤ)) 0)
  else pixels

/-- Modelled from the spec: the update pass in which every below-value is
read from the pre-update snapshot. -/
def snapshotPass (width : ℕ) (decays : ℕ → ℕ) (orig : List ℤ) : ℕ → List ℤ
  | 0 => orig
  | n + 1 => snapshotStep width orig (decays n) (snapshotPass width decays orig n) n

/-- One iteration of the `Fire.increase` loop, iterations `1 .. m` applied in
order: `pixels[-i] = min(pixels[-i] + randint(0, 14), 36)`. -/
def increaseLoop (draws : ℕ → ℤ) (pixels : List ℤ) : ℕ → List ℤ
  | 0 => pixels
  | m + 1 =>
      let p := increaseLoop draws pixels m
      p.set (p.length - (m + 1)) (min (p.getD (p.length - (m + 1)) 0 + draws (m + 1)) 36)

/-- `Fire.increase`: raise each bottom-row cell, clamped at 36. -/
def Fire.increase (f : Fire) (draws : ℕ → ℤ) : Fire :=
  { f with pixels := increaseLoop draws f.pixels f.width }

/-- One iteration of the `Fire.decrease` loop, iterations `1 .. m` applied in
order: `pixels[-i] = max(pixels[-i] - randint(0, 14), 0)`. -/
def decreaseLoop (draws : ℕ → ℤ) (pixels : List ℤ) : ℕ → List ℤ
  | 0 => pixels
  | m + 1 =>
      let p := decreaseLoop draws pixels m
      p.set (p.length - (m + 1)) (max (p.getD (p.length - (m + 1)) 0 - draws (m + 1)) 0)

/-- `Fire.decrease`: lower each bottom-row cell, clamped at 0. -/
def Fire.decrease (f : Fire) (draws : ℕ → ℤ) : Fire :=
  { f with pixels := decreaseLoop draws f.pixels f.width }

/-- `Fire.color`: clamp the value at 0, look the result up in the palette,
and on `IndexError` (`pallete[v]` out of range) return `pallete[-1]`. -/
def Fire.color (value : ℤ) (pallete : List (ℕ × ℕ × ℕ) := PALETTE) : ℕ × ℕ × ℕ :=
  let v := max value 0
  pallete.getD v.toNat (pallete.getLastD (0, 0, 0))

/-- `Fire._rects`: the rectangles `(x0 + j*pixel_size, y0 + i*pixel_size,
pixel_size, pixel_size)` yielded for `i in range(height)`, `j in range(width)`,
as the list of all yields in order. -/
def Fire.rects (width height pixel_size : ℕ) (offset : ℕ × ℕ) : List (ℕ × ℕ × ℕ × ℕ) :=
  (List.range height).flatMap fun i =>
    (List.range width).map fun j =>
      (offset.1 + j * pixel_size, offset.2 + i * pixel_size, pixel_size, pixel_size)

/-- One call made by the main loop on a `Fire`, with its random draws. -/
inductive Op where
  | update (decays : ℕ → ℕ)
  | increase (draws : ℕ → ℤ)
  | decrease (draws : ℕ → ℤ)

/-- The bounds the Python random library guarantees for the draws of an `Op`:
`int(random() * 2) ∈ {0, 1}` and `randint(0, 14) ∈ [0, 14]`. -/
def Op.Valid : Op → Prop
  | .update decays => ∀ i, decays i ≤ 1
  | .increase draws => ∀ i, 0 ≤ draws i ∧ draws i ≤ 14
  | .decrease draws => ∀ i, 0 ≤ draws i ∧ draws i ≤ 14

/-- Apply one `Op` to a `Fire`. -/
def Fire.apply (f : Fire) : Op → Fire
  | .update decays => f.update decays
  | .increase draws => f.increase draws
  | .decrease draws => f.decrease draws

/-- Apply a finite sequence of calls in order. -/
def Fire.applyAll (f : Fire) (ops : List Op) : Fire :=
  ops.foldl Fire.apply f

/-- All cells lie in the intensity range `[0, 36]`. -/
def InRange (l : List ℤ) : Prop := ∀ v ∈ l, 0 ≤ v ∧ v ≤ 36

/-- The maximum intensity of a grid (0 for the empty grid). -/
def gridMax (l : List ℤ) : ℤ := l.foldr max 0

/-! ### List access helpers -/

lemma getD_set_ne (l : List ℤ) {i j : ℕ} (a : ℤ) (h : i ≠ j) :
    (l.set i a).getD j 0 = l.getD j 0 := by
  simp [List.getD_eq_getElem?_getD, List.getElem?_set_ne h]

lemma getD_set_self (l : List ℤ) {i : ℕ} (a : ℤ) (h : i < l.length) :
    (l.set i a).getD i 0 = a := by
  simp [List.getD_eq_getElem?_getD, List.getElem?_set_self, h]

lemma getD_default (l : List ℤ) {n : ℕ} (h : l.length ≤ n) : l.getD n 0 = 0 := by
  simp [List.getD_eq_getElem?_getD, List.getElem?_eq_none h]

lemma getD_mem (l : List ℤ) {n : ℕ} (h : n < l.length) : l.getD n 0 ∈ l := by
  rw [List.getD_eq_getElem l 0 h]
  exact List.getElem_mem h

lemma forall_mem_set {P : ℤ → Prop} {l : List ℤ} {i : ℕ} {a : ℤ}
    (hl : ∀ v ∈ l, P v) (ha : P a) : ∀ v ∈ l.set i a, P v := by
  intro v hv
  rcases List.mem_or_eq_of_mem_set hv with h | h
  · exact hl v h
  · exact h ▸ ha

/-! ### The update pass -/

lemma updateStep_length (width d : ℕ) (pixels : List ℤ) (i : ℕ) :
    (updateStep width d pixels i).length = pixels.length := by
  unfold updateStep
  split_ifs <;> simp

lemma updatePass_length (width : ℕ) (decays : ℕ → ℕ) (pixels : List ℤ) (n : ℕ) :
    (updatePass width decays pixels n).length = pixels.length := by
  induction n with
  | zero => rfl
  | succ n ih => rw [updatePass, updateStep_length, ih]

/-- Indices not yet reached by the ascending pass are untouched: every write
of step `m` targets an index `≤ m`. -/
lemma updatePass_getD_of_le (width : ℕ) (decays : ℕ → ℕ) (pixels : List ℤ)
    {n j : ℕ} (h : n ≤ j) :
    (updatePass width decays pixels n).getD j 0 = pixels.getD j 0 := by
  induction n with
  | zero => rfl
  | succ n ih =>
      have hn : n ≤ j := Nat.le_of_succ_le h
      rw [updatePass]
      unfold updateStep
      split_ifs with h1 h2
      · exact ih hn
      · rw [getD_set_ne _ _ (by omega), ih hn]
      · exact ih hn

/-- The in-place ascending pass agrees with the pass reading every
below-value from the pre-update snapshot. -/
lemma updatePass_eq_snapshotPass (width : ℕ) (decays : ℕ → ℕ) (pixels : List ℤ) (n : ℕ) :
    updatePass width decays pixels n = snapshotPass width decays pixels n := by
  induction n with
  | zero => rfl
  | succ n ih =>
      rw [updatePass, snapshotPass, ← ih]
      unfold updateStep snapshotStep
      rw [updatePass_length,
        updatePass_getD_of_le width decays pixels (Nat.le_add_right n width)]

/-- The pass never writes at or below `pixels.length - width`: a write at
step `i` requires `i + width < pixels.length` and targets `i - d ≤ i`. -/
lemma updatePass_getD_bottom (width : ℕ) (decays : ℕ → ℕ) (pixels : List ℤ)
    {n j : ℕ} (h : pixels.length - width ≤ j) :
    (updatePass width decays pixels n).getD j 0 = pixels.getD j 0 := by
  induction n with
  | zero => rfl
  | succ n ih =>
      rw [updatePass]
      unfold updateStep
      rw [updatePass_length]
      split_ifs with h1 h2
      · exact ih
      · rw [getD_set_ne _ _ (by omega), ih]
      · exact ih

lemma updatePass_le (width : ℕ) (decays : ℕ → ℕ) (pixels : List ℤ) (n : ℕ)
    {M : ℤ} (hM : 0 ≤ M) (h : ∀ v ∈ pixels, v ≤ M) :
    ∀ v ∈ updatePass width decays pixels n, v ≤ M := by
  induction n with
  | zero => exact h
  | succ n ih =>
      rw [updatePass]
      unfold updateStep
      split_ifs with h1 h2
      · exact ih
      · refine forall_mem_set ih ?_
        rcases Nat.lt_or_ge (n + width) (updatePass width decays pixels n).length with hr | hr
        · have : (updatePass width decays pixels n).getD (n + width) 0 ≤ M :=
            ih _ (getD_mem _ hr)
          have hd : (0 : ℤ) ≤ (decays n : ℤ) := Int.natCast_nonneg _
          omega
        · rw [getD_default _ hr]
          have hd : (0 : ℤ) ≤ (decays n : ℤ) := Int.natCast_nonneg _
          omega
      · exact ih

lemma updatePass_nonneg (width : ℕ) (decays : ℕ → ℕ) (pixels : List ℤ) (n : ℕ)
    (h : ∀ v ∈ pixels, 0 ≤ v) :
    ∀ v ∈ updatePass width decays pixels n, 0 ≤ v := by
  induction n with
  | zero => exact h
  | succ n ih =>
      rw [updatePass]
      unfold updateStep
      split_ifs with h1 h2
      · exact ih
      · exact forall_mem_set ih (le_max_right _ _)
      · exact ih

/-! ### The bottom-row loops -/

lemma increaseLoop_length (draws : ℕ → ℤ) (pixels : List ℤ) (m : ℕ) :
    (increaseLoop draws pixels m).length = pixels.length := by
  induction m with
  | zero => rfl
  | succ m ih => rw [increaseLoop]; simpa using ih

lemma increaseLoop_getD_lt (draws : ℕ → ℤ) (pixels : List ℤ) {m j : ℕ}
    (h : j + m < pixels.length) :
    (increaseLoop draws pixels m).getD j 0 = pixels.getD j 0 := by
  induction m with
  | zero => rfl
  | succ m ih =>
      rw [increaseLoop]
      simp only [increaseLoop_length]
      rw [getD_set_ne _ _ (by omega), ih (by omega)]

lemma increaseLoop_getD_at (draws : ℕ → ℤ) (pixels : List ℤ) {m i : ℕ}
    (h1 : 1 ≤ i) (h2 : i ≤ m) (hm : m ≤ pixels.length) :
    (increaseLoop draws pixels m).getD (pixels.length - i) 0
      = min (pixels.getD (pixels.length - i) 0 + draws i) 36 := by
  induction m with
  | zero => omega
  | succ m ih =>
      rw [increaseLoop]
      simp only [increaseLoop_length]
      rcases Nat.eq_or_lt_of_le h2 with he | hlt
      · subst he
        rw [getD_set_self _ _ (by rw [increaseLoop_length]; omega),
          increaseLoop_getD_lt draws pixels (by omega)]
      · rw [getD_set_ne _ _ (by omega), ih (by omega) (by omega)]

lemma increaseLoop_bounds (draws : ℕ → ℤ) (pixels : List ℤ) (m : ℕ)
    (hd : ∀ i, 0 ≤ draws i) (h : ∀ v ∈ pixels, 0 ≤ v ∧ v ≤ 36) :
    ∀ v ∈ increaseLoop draws pixels m, 0 ≤ v ∧ v ≤ 36 := by
  induction m with
  | zero => exact h
  | succ m ih =>
      rw [increaseLoop]
      refine forall_mem_set ih ⟨le_min ?_ (by omega), min_le_right _ _⟩
      have hp : 0 ≤ (increaseLoop draws pixels m).getD
          ((increaseLoop draws pixels m).length - (m + 1)) 0 := by
        rcases Nat.lt_or_ge ((increaseLoop draws pixels m).length - (m + 1))
            (increaseLoop draws pixels m).length with hr | hr
        · exact (ih _ (getD_mem _ hr)).1
        · rw [getD_default _ hr]
      have := hd (m + 1)
      omega

lemma decreaseLoop_length (draws : ℕ → ℤ) (pixels : List ℤ) (m : ℕ) :
    (decreaseLoop draws pixels m).length = pixels.length := by
  induction m with
  | zero => rfl
  | succ m ih => rw [decreaseLoop]; simpa using ih

lemma decreaseLoop_getD_lt (draws : ℕ → ℤ) (pixels : List ℤ) {m j : ℕ}
    (h : j + m < pixels.length) :
    (decreaseLoop draws pixels m).getD j 0 = pixels.getD j 0 := by
  induction m with
  | zero => rfl
  | succ m ih =>
      rw [decreaseLoop]
      simp only [decreaseLoop_length]
      rw [getD_set_ne _ _ (by omega), ih (by omega)]

lemma decreaseLoop_getD_at (draws : ℕ → ℤ) (pixels : List ℤ) {m i : ℕ}
    (h1 : 1 ≤ i) (h2 : i ≤ m) (hm : m ≤ pixels.length) :
    (decreaseLoop draws pixels m).getD (pixels.length - i) 0
      = max (pixels.getD (pixels.length - i) 0 - draws i) 0 := by
  induction m with
  | zero => omega
  | succ m ih =>
      rw [decreaseLoop]
      simp only [decreaseLoop_length]
      rcases Nat.eq_or_lt_of_le h2 with he | hlt
      · subst he
        rw [getD_set_self _ _ (by rw [decreaseLoop_length]; omega),
          decreaseLoop_getD_lt draws pixels (by omega)]
      · rw [getD_set_ne _ _ (by omega), ih (by omega) (by omega)]

lemma decreaseLoop_bounds (draws : ℕ → ℤ) (pixels : List ℤ) (m : ℕ)
    (hd : ∀ i, 0 ≤ draws i) (h : ∀ v ∈ pixels, 0 ≤ v ∧ v ≤ 36) :
    ∀ v ∈ decreaseLoop draws pixels m, 0 ≤ v ∧ v ≤ 36 := by
  induction m with
  | zero => exact h
  | succ m ih =>
      rw [decreaseLoop]
      refine forall_mem_set ih ⟨le_max_right _ _, max_le ?_ (by omega)⟩
      have hp : (decreaseLoop draws pixels m).getD
          ((decreaseLoop draws pixels m).length - (m + 1)) 0 ≤ 36 := by
        rcases Nat.lt_or_ge ((decreaseLoop draws pixels m).length - (m + 1))
            (decreaseLoop draws pixels m).length with hr | hr
        · exact (ih _ (getD_mem _ hr)).2
        · rw [getD_default _ hr]; omega
      have := hd (m + 1)
      omega

lemma createLoop_length (draws : ℕ → ℤ) (fire : List ℤ) (m : ℕ) :
    (createLoop draws fire m).length = fire.length := by
  induction m with
  | zero => rfl
  | succ m ih => rw [createLoop]; simpa using ih

lemma createLoop_getD_lt (draws : ℕ → ℤ) (fire : List ℤ) {m j : ℕ}
    (h : j + m < fire.length) :
    (createLoop draws fire m).getD j 0 = fire.getD j 0 := by
  induction m with
  | zero => rfl
  | succ m ih =>
      rw [createLoop]
      simp only [createLoop_length]
      rw [getD_set_ne _ _ (by omega), ih (by omega)]

lemma createLoop_getD_at (draws : ℕ → ℤ) (fire : List ℤ) {m i : ℕ}
    (h1 : 1 ≤ i) (h2 : i ≤ m) (hm : m ≤ fire.length) :
    (createLoop draws fire m).getD (fire.length - i) 0 = draws i := by
  induction m with
  | zero => omega
  | succ m ih =>
      rw [createLoop]
      simp only [createLoop_length]
      rcases Nat.eq_or_lt_of_le h2 with he | hlt
      · subst he
        rw [getD_set_self _ _ (by rw [createLoop_length]; omega)]
      · rw [getD_set_ne _ _ (by omega), ih (by omega) (by omega)]

/-! ### Construction and the global range invariant -/

lemma getD_replicate (n j : ℕ) : (List.replicate n (0 : ℤ)).getD j 0 = 0 := by
  rcases Nat.lt_or_ge j n with h | h
  · rw [List.getD_eq_getElem _ _ (by simpa using h), List.getElem_replicate]
  · exact getD_default _ (by simpa using h)

lemma create_length (width height : ℕ) (draws : ℕ → ℤ) :
    (Fire.create width height draws).length = width * height := by
  rw [Fire.create, createLoop_length, List.length_replicate]

lemma create_getD_top (width height : ℕ) (draws : ℕ → ℤ) {j : ℕ}
    (h : j + width < width * height) :
    (Fire.create width height draws).getD j 0 = 0 := by
  rw [Fire.create, createLoop_getD_lt draws _ (by simpa using h), getD_replicate]

lemma create_getD_bottom (width height : ℕ) (draws : ℕ → ℤ) {i : ℕ}
    (h1 : 1 ≤ i) (h2 : i ≤ width) (hh : 1 ≤ height) :
    (Fire.create width height draws).getD (width * height - i) 0 = draws i := by
  have hw : width ≤ width * height := Nat.le_mul_of_pos_right width hh
  have := createLoop_getD_at draws (List.replicate (width * height) (0 : ℤ))
    h1 h2 (by simpa using hw)
  rw [Fire.create]
  simpa using this

lemma createLoop_inRange (draws : ℕ → ℤ) (fire : List ℤ) (m : ℕ)
    (hd : ∀ i, 0 ≤ draws i ∧ draws i ≤ 36) (h : InRange fire) :
    InRange (createLoop draws fire m) := by
  induction m with
  | zero => exact h
  | succ m ih =>
      rw [createLoop]
      exact forall_mem_set ih (hd (m + 1))

lemma create_inRange (width height : ℕ) (draws : ℕ → ℤ)
    (hd : ∀ i, 0 ≤ draws i ∧ draws i ≤ 36) :
    InRange (Fire.create width height draws) := by
  refine createLoop_inRange draws _ width hd ?_
  intro v hv
  rw [List.eq_of_mem_replicate hv]
  omega

lemma apply_inRange (f : Fire) (op : Op) (hop : op.Valid) (h : InRange f.pixels) :
    InRange (f.apply op).pixels := by
  cases op with
  | update decays =>
      intro v hv
      exact ⟨updatePass_nonneg _ _ _ _ (fun w hw => (h w hw).1) v hv,
        updatePass_le _ _ _ _ (by omega) (fun w hw => (h w hw).2) v hv⟩
  | increase draws =>
      exact increaseLoop_bounds _ _ _ (fun i => (hop i).1) h
  | decrease draws =>
      exact decreaseLoop_bounds _ _ _ (fun i => (hop i).1) h

lemma applyAll_inRange (f : Fire) (ops : List Op) (hops : ∀ op ∈ ops, op.Valid)
    (h : InRange f.pixels) : InRange (f.applyAll ops).pixels := by
  induction ops generalizing f with
  | nil => exact h
  | cons op ops ih =>
      exact ih _ (fun o ho => hops o (List.mem_cons_of_mem _ ho))
        (apply_inRange f op (hops op (List.mem_cons_self op ops)) h)

/-! ### The rectangle sequence -/

lemma rects_eq_map (w h p x0 y0 : ℕ) :
    Fire.rects w h p (x0, y0)
      = (List.range (h * w)).map fun k => (x0 + (k % w) * p, y0 + (k / w) * p, p, p) := by
  induction h with
  | zero => simp [Fire.rects]
  | succ h ih =>
      rw [Fire.rects, List.range_succ, List.flatMap_append, ← Fire.rects, ih,
        Nat.succ_mul, List.range_add, List.map_append, List.map_map]
      congr 1
      · simp only [List.flatMap_cons, List.flatMap_nil, List.append_nil]
        refine List.map_congr_left ?_
        intro j hj
        have hjw : j < w := List.mem_range.mp hj
        have hw : 0 < w := lt_of_le_of_lt (Nat.zero_le j) hjw
        have hmod : (h * w + j) % w = j := by
          rw [Nat.mul_comm, Nat.mul_add_mod, Nat.mod_eq_of_lt hjw]
        have hdiv : (h * w + j) / w = h := by
          rw [Nat.mul_comm, Nat.mul_add_div hw, Nat.div_eq_of_lt hjw, Nat.add_zero]
        simp only [Function.comp_apply]
        rw [hmod, hdiv]

lemma rects_length (w h p x0 y0 : ℕ) :
    (Fire.rects w h p (x0, y0)).length = w * h := by
  rw [rects_eq_map, List.length_map, List.length_range, Nat.mul_comm]

lemma rects_getD (w h p x0 y0 : ℕ) {k : ℕ} (hk : k < w * h) :
    (Fire.rects w h p (x0, y0)).getD k (0, 0, 0, 0)
      = (x0 + (k % w) * p, y0 + (k / w) * p, p, p) := by
  have hk' : k < h * w := Nat.mul_comm w h ▸ hk
  rw [rects_eq_map, List.getD_eq_getElem _ _ (by simpa using hk')]
  simp

/-! ### The 4x4 scenario with intensity range (36, 36) -/

lemma four_create_getD (seed : ℕ → ℤ) (hseed : ∀ i, seed i = 36) {j : ℕ} (hj : j < 16) :
    (Fire.create 4 4 seed).getD j 0 = if j < 12 then 0 else 36 := by
  rcases Nat.lt_or_ge j 12 with h | h
  · rw [if_pos h]
    exact create_getD_top 4 4 seed (by omega)
  · rw [if_neg (by omega)]
    have hji : j = 4 * 4 - (16 - j) := by omega
    rw [hji, create_getD_bottom 4 4 seed (by omega) (by omega) (by omega), hseed]

lemma four_pass_getD (seed : ℕ → ℤ) (decays : ℕ → ℕ)
    (hseed : ∀ i, seed i = 36) (hdec : ∀ i, decays i ≤ 1) (n : ℕ) :
    ∀ j < 12, (updatePass 4 decays (Fire.create 4 4 seed) n).getD j 0 = 0
      ∨ (updatePass 4 decays (Fire.create 4 4 seed) n).getD j 0 = 35
      ∨ (updatePass 4 decays (Fire.create 4 4 seed) n).getD j 0 = 36 := by
  have hlen : (Fire.create 4 4 seed).length = 16 := create_length 4 4 seed
  induction n with
  | zero =>
      intro j hj
      rw [updatePass, four_create_getD seed hseed (by omega), if_pos hj]
      exact Or.inl rfl
  | succ n ih =>
      intro j hj
      rw [updatePass]
      unfold updateStep
      rw [updatePass_length, hlen]
      split_ifs with h1 h2
      · exact ih j hj
      · rcases Nat.decEq (n - decays n) j with hne | heq
        · rw [getD_set_ne _ _ hne]
          exact ih j hj
        · subst heq
          rw [getD_set_self _ _ (by rw [updatePass_length, hlen]; omega),
            updatePass_getD_of_le 4 decays _ (Nat.le_add_right n 4),
            four_create_getD seed hseed (by omega)]
          rcases Nat.lt_or_ge (n + 4) 12 with hr | hr
          · rw [if_pos hr]
            left
            have : (0 : ℤ) ≤ (decays n : ℤ) := Int.natCast_nonneg _
            omega
          · rw [if_neg (by omega)]
            have hd : (decays n : ℤ) ≤ 1 := by exact_mod_cast hdec n
            have hd0 : (0 : ℤ) ≤ (decays n : ℤ) := Int.natCast_nonneg _
            right
            omega
      · exact ih j hj

/-! ### Palette and maximum helpers -/

lemma getD_length_le {α : Type} (l : List α) (d : α) {n : ℕ} (h : l.length ≤ n) :
    l.getD n d = d := by
  simp [List.getD_eq_getElem?_getD, List.getElem?_eq_none h]

lemma gridMax_nonneg (l : List ℤ) : 0 ≤ gridMax l := by
  induction l with
  | nil => exact le_refl 0
  | cons x xs ih => exact le_trans ih (le_max_right x (gridMax xs))

lemma le_gridMax (l : List ℤ) : ∀ v ∈ l, v ≤ gridMax l := by
  induction l with
  | nil => intro v hv; cases hv
  | cons x xs ih =>
      intro v hv
      rcases List.mem_cons.mp hv with h | h
      · exact h ▸ le_max_left x (gridMax xs)
      · exact le_trans (ih v h) (le_max_right x (gridMax xs))

lemma gridMax_le (l : List ℤ) {M : ℤ} (hM : 0 ≤ M) (h : ∀ v ∈ l, v ≤ M) :
    gridMax l ≤ M := by
  induction l with
  | nil => exact hM
  | cons x xs ih =>
      refine max_le (h x (List.mem_cons_self x xs)) ?_
      exact ih fun v hv => h v (List.mem_cons_of_mem x hv)

/-! ### Claims -/

/-- C1: for every Fire constructed with positive dimensions and an intensity
range `(lo, hi)` with `0 ≤ lo ≤ hi ≤ 36`, after any finite sequence of
`update()`, `increase()`, `decrease()` calls every element of `pixels`
lies in `[0, 36]`. -/
theorem C1_range_invariant (width height lo hi pixel_size : ℕ)
    (hw : 0 < width) (hh : 0 < height) (hlo : lo ≤ hi) (hhi : hi ≤ 36)
    (seed : ℕ → ℤ) (hseed : ∀ i, (lo : ℤ) ≤ seed i ∧ seed i ≤ (hi : ℤ))
    (ops : List Op) (hops : ∀ op ∈ ops, op.Valid) :
    ∀ v ∈ ((Fire.mk width height pixel_size
        (Fire.create width height seed)).applyAll ops).pixels,
      0 ≤ v ∧ v ≤ 36 := by
  refine applyAll_inRange _ ops hops (create_inRange width height seed ?_)
  intro i
  have h1 := (hseed i).1
  have h2 := (hseed i).2
  have h0 : (0 : ℤ) ≤ (lo : ℤ) := Int.natCast_nonneg lo
  have h36 : (hi : ℤ) ≤ 36 := by exact_mod_cast hhi
  omega

theorem C1_range_invariant_wit :
    (0 : ℤ) ≤ 36 ∧ (36 : ℤ) ≤ 36 :=
  C1_range_invariant 1 1 36 36 5 (by decide) (by decide) (by decide) (by decide)
    (fun _ => 36) (fun _ => ⟨by norm_num, by norm_num⟩)
    [Op.update fun _ => 1]
    (fun op hop => by rw [List.mem_singleton.mp hop]; exact fun _ => le_refl 1)
    36 (by decide)

/-- C2: the in-place ascending update pass is equivalent to the pass that
reads every below-value from a snapshot of the pre-update grid: every write
of step `i` targets an index `≤ i`, so the read index `i + width` is never
yet touched. -/
theorem C2_update_refines_snapshot (f : Fire) (decays : ℕ → ℕ) :
    (f.update decays).pixels
      = snapshotPass f.width decays f.pixels (f.width * f.height) :=
  updatePass_eq_snapshotPass f.width decays f.pixels (f.width * f.height)

/-- C3: `update()` leaves every cell of the bottom row (indices
`(height-1)*width ..`) unchanged; for a 1x1 field the single cell is
unchanged. -/
theorem C3_bottom_row_unchanged (f : Fire) (decays : ℕ → ℕ)
    (hw : 0 < f.width) (hh : 0 < f.height)
    (hlen : f.pixels.length = f.width * f.height) :
    ∀ j, (f.height - 1) * f.width ≤ j →
      (f.update decays).pixels.getD j 0 = f.pixels.getD j 0 := by
  intro j hj
  refine updatePass_getD_bottom f.width decays f.pixels ?_
  have hsub : (f.height - 1) * f.width = f.height * f.width - 1 * f.width :=
    Nat.sub_mul f.height 1 f.width
  have hcomm : f.width * f.height = f.height * f.width := Nat.mul_comm _ _
  omega

theorem C3_bottom_row_unchanged_wit :
    (Fire.update (Fire.mk 1 1 5 [(7 : ℤ)]) (fun _ => 0)).pixels.getD 0 0
      = ([(7 : ℤ)]).getD 0 0 :=
  C3_bottom_row_unchanged (Fire.mk 1 1 5 [(7 : ℤ)]) (fun _ => 0)
    (by decide) (by decide) (by decide) 0 (by decide)

/-- C4 counterexample: on the 4x4 field with intensity range (36, 36), with
the valid decay draw 0 at every step, one `update()` leaves the cell at
index 0 — a cell in the rows above the bottom row — at 0, not 35 or 36. -/
theorem C4_counterexample :
    (Fire.update (Fire.mk 4 4 5 (Fire.create 4 4 fun _ => 36))
        (fun _ => 0)).pixels.getD 0 0 = 0
    ∧ (Fire.update (Fire.mk 4 4 5 (Fire.create 4 4 fun _ => 36))
        (fun _ => 0)).pixels.getD 0 0 ≠ 35
    ∧ (Fire.update (Fire.mk 4 4 5 (Fire.create 4 4 fun _ => 36))
        (fun _ => 0)).pixels.getD 0 0 ≠ 36 := by
  decide

/-- C4 (amended): for a 4x4 field constructed with intensity range (36, 36),
after exactly one `update()` the bottom row is unchanged (still 36), and every
cell in the rows above the bottom row equals 0, 35 or 36, for every sequence
of decay draws in {0, 1}: a written cell holds `max(below - d, 0)` for the
pre-update below value (36 for the row just above the bottom, 0 higher up),
and an unwritten cell keeps its initial 0. -/
theorem C4_four_by_four (seed : ℕ → ℤ) (decays : ℕ → ℕ)
    (hseed : ∀ i, seed i = 36) (hdec : ∀ i, decays i ≤ 1) :
    (∀ j, 12 ≤ j → j < 16 →
      (Fire.update (Fire.mk 4 4 5 (Fire.create 4 4 seed)) decays).pixels.getD j 0 = 36)
    ∧ (∀ j, j < 12 →
      (Fire.update (Fire.mk 4 4 5 (Fire.create 4 4 seed)) decays).pixels.getD j 0 = 0
      ∨ (Fire.update (Fire.mk 4 4 5 (Fire.create 4 4 seed)) decays).pixels.getD j 0 = 35
      ∨ (Fire.update (Fire.mk 4 4 5 (Fire.create 4 4 seed)) decays).pixels.getD j 0 = 36) := by
  constructor
  · intro j h1 h2
    simp only [Fire.update]
    rw [updatePass_getD_bottom 4 decays _ (by rw [create_length]; omega),
      four_create_getD seed hseed (by omega), if_neg (by omega)]
  · intro j hj
    simp only [Fire.update]
    exact four_pass_getD seed decays hseed hdec _ j hj

theorem C4_four_by_four_wit :
    (Fire.update (Fire.mk 4 4 5 (Fire.create 4 4 fun _ => 36))
        (fun _ => 1)).pixels.getD 12 0 = 36
    ∧ ((Fire.update (Fire.mk 4 4 5 (Fire.create 4 4 fun _ => 36))
        (fun _ => 1)).pixels.getD 11 0 = 0
      ∨ (Fire.update (Fire.mk 4 4 5 (Fire.create 4 4 fun _ => 36))
        (fun _ => 1)).pixels.getD 11 0 = 35
      ∨ (Fire.update (Fire.mk 4 4 5 (Fire.create 4 4 fun _ => 36))
        (fun _ => 1)).pixels.getD 11 0 = 36) :=
  ⟨(C4_four_by_four (fun _ => 36) (fun _ => 1) (fun _ => rfl) (fun _ => le_refl 1)).1
      12 (by decide) (by decide),
   (C4_four_by_four (fun _ => 36) (fun _ => 1) (fun _ => rfl) (fun _ => le_refl 1)).2
      11 (by decide)⟩

/-- C5: with the default palette, `Fire.color v` is `PALETTE[max(v, 0)]` when
`max(v, 0) ≤ 36` and the last palette entry otherwise: for `v < 0` it equals
`color 0 = (7, 7, 7)`, and for `v ≥ 36` it equals `(255, 255, 255)`,
saturating at both ends. -/
theorem C5_color_saturates (v : ℤ) :
    (v < 0 → Fire.color v = Fire.color 0 ∧ Fire.color v = (7, 7, 7))
    ∧ (0 ≤ v → v ≤ 36 → Fire.color v = PALETTE.getD v.toNat (0, 0, 0))
    ∧ (36 ≤ v → Fire.color v = (255, 255, 255)) := by
  refine ⟨fun hneg => ?_, fun h0 h36 => ?_, fun h36 => ?_⟩
  · have hmax : max v 0 = 0 := max_eq_right (le_of_lt hneg)
    unfold Fire.color
    rw [hmax]
    exact ⟨rfl, rfl⟩
  · have hmax : max v 0 = v := max_eq_left h0
    have hlt : v.toNat < PALETTE.length := by
      have : v.toNat ≤ 36 := by omega
      simpa [PALETTE] using by omega
    unfold Fire.color
    rw [hmax, List.getD_eq_getElem _ _ hlt, List.getD_eq_getElem _ _ hlt]
  · rcases eq_or_lt_of_le h36 with he | hlt
    · rw [← he]
      decide
    · have hmax : max v 0 = v := max_eq_left (by omega)
      have hge : PALETTE.length ≤ v.toNat := by
        have : 37 ≤ v.toNat := by omega
        simpa [PALETTE] using this
      unfold Fire.color
      rw [hmax, getD_length_le _ _ hge]
      decide

theorem C5_color_saturates_wit :
    (Fire.color (-5) = Fire.color 0 ∧ Fire.color (-5) = (7, 7, 7))
    ∧ Fire.color 18 = PALETTE.getD (18 : ℤ).toNat (0, 0, 0)
    ∧ Fire.color 40 = (255, 255, 255) :=
  ⟨(C5_color_saturates (-5)).1 (by decide),
   (C5_color_saturates 18).2.1 (by decide) (by decide),
   (C5_color_saturates 40).2.2 (by decide)⟩

/-- C6: after construction with positive dimensions and intensity range
`(lo, hi)`, `pixels` has length `width * height`, every cell outside the
bottom row is 0, and every bottom-row cell lies in `[lo, hi]`. -/
theorem C6_construction (width height lo hi : ℕ) (seed : ℕ → ℤ)
    (hw : 0 < width) (hh : 0 < height) (hlo : lo ≤ hi) (hhi : hi ≤ 36)
    (hseed : ∀ i, (lo : ℤ) ≤ seed i ∧ seed i ≤ (hi : ℤ)) :
    (Fire.create width height seed).length = width * height
    ∧ (∀ j, j < (height - 1) * width →
        (Fire.create width height seed).getD j 0 = 0)
    ∧ (∀ j, (height - 1) * width ≤ j → j < width * height →
        (lo : ℤ) ≤ (Fire.create width height seed).getD j 0
          ∧ (Fire.create width height seed).getD j 0 ≤ (hi : ℤ)) := by
  have hsub : (height - 1) * width = height * width - 1 * width :=
    Nat.sub_mul height 1 width
  have hcomm : width * height = height * width := Nat.mul_comm _ _
  have hwle : width ≤ width * height := Nat.le_mul_of_pos_right width hh
  refine ⟨create_length width height seed, fun j hj => ?_, fun j hj1 hj2 => ?_⟩
  · exact create_getD_top width height seed (by omega)
  · have hji : j = width * height - (width * height - j) := by omega
    rw [hji, create_getD_bottom width height seed (by omega) (by omega) hh]
    exact hseed (width * height - j)

theorem C6_construction_wit :
    (Fire.create 2 2 fun _ => 33).length = 2 * 2
    ∧ ((Fire.create 2 2 fun _ => 33).getD 0 0 = 0)
    ∧ ((32 : ℤ) ≤ (Fire.create 2 2 fun _ => 33).getD 2 0
        ∧ (Fire.create 2 2 fun _ => 33).getD 2 0 ≤ (36 : ℤ)) :=
  ⟨(C6_construction 2 2 32 36 (fun _ => 33) (by decide) (by decide) (by decide)
      (by decide) (fun _ => ⟨by norm_num, by norm_num⟩)).1,
   (C6_construction 2 2 32 36 (fun _ => 33) (by decide) (by decide) (by decide)
      (by decide) (fun _ => ⟨by norm_num, by norm_num⟩)).2.1 0 (by decide),
   (C6_construction 2 2 32 36 (fun _ => 33) (by decide) (by decide) (by decide)
      (by decide) (fun _ => ⟨by norm_num, by norm_num⟩)).2.2 2 (by decide) (by decide)⟩

/-- C7: `increase()` then immediately `decrease()` with identical per-column
draws restores each bottom-row cell whose prior value `v` (with `0 ≤ v`, as
the range invariant guarantees) satisfies `v + r ≤ 36` exactly to `v`. -/
theorem C7_increase_decrease_symmetry (f : Fire) (draws : ℕ → ℤ) (i : ℕ)
    (h1 : 1 ≤ i) (h2 : i ≤ f.width) (hw : f.width ≤ f.pixels.length)
    (hd : 0 ≤ draws i ∧ draws i ≤ 14)
    (hv : 0 ≤ f.pixels.getD (f.pixels.length - i) 0)
    (hvr : f.pixels.getD (f.pixels.length - i) 0 + draws i ≤ 36) :
    ((f.increase draws).decrease draws).pixels.getD (f.pixels.length - i) 0
      = f.pixels.getD (f.pixels.length - i) 0 := by
  have hL : (increaseLoop draws f.pixels f.width).length = f.pixels.length :=
    increaseLoop_length draws f.pixels f.width
  have e1 := increaseLoop_getD_at draws f.pixels h1 h2 hw
  have e2 := decreaseLoop_getD_at draws (increaseLoop draws f.pixels f.width)
    h1 h2 (by rw [hL]; exact hw)
  rw [hL] at e2
  show (decreaseLoop draws (increaseLoop draws f.pixels f.width) f.width).getD
    (f.pixels.length - i) 0 = _
  rw [e2, e1, min_eq_left hvr]
  omega

theorem C7_increase_decrease_symmetry_wit :
    (((Fire.mk 2 2 5 [(0 : ℤ), 0, 9, 30]).increase fun _ => 6).decrease
        fun _ => 6).pixels.getD (([(0 : ℤ), 0, 9, 30]).length - 1) 0
      = ([(0 : ℤ), 0, 9, 30]).getD (([(0 : ℤ), 0, 9, 30]).length - 1) 0 :=
  C7_increase_decrease_symmetry (Fire.mk 2 2 5 [(0 : ℤ), 0, 9, 30]) (fun _ => 6) 1
    (by decide) (by decide) (by decide) ⟨by decide, by decide⟩ (by decide) (by decide)

/-- C8: `Fire._rects(w, h, p, (x0, y0))` yields exactly `w*h` rectangles in
row-major order, the k-th being `(x0 + (k mod w)*p, y0 + (k div w)*p, p, p)`;
with offset `(0, 0)` the first is `(0, 0, p, p)` and the last is
`((w-1)*p, (h-1)*p, p, p)`. -/
theorem C8_rects (w h p x0 y0 : ℕ) (hw : 0 < w) (hh : 0 < h) (hp : 0 < p) :
    (Fire.rects w h p (x0, y0)).length = w * h
    ∧ (∀ k, k < w * h → (Fire.rects w h p (x0, y0)).getD k (0, 0, 0, 0)
        = (x0 + k % w * p, y0 + k / w * p, p, p))
    ∧ (Fire.rects w h p (0, 0)).getD 0 (0, 0, 0, 0) = (0, 0, p, p)
    ∧ (Fire.rects w h p (0, 0)).getD (w * h - 1) (0, 0, 0, 0)
        = ((w - 1) * p, (h - 1) * p, p, p) := by
  refine ⟨rects_length w h p x0 y0, fun k hk => rects_getD w h p x0 y0 hk, ?_, ?_⟩
  · rw [rects_getD w h p 0 0 (Nat.mul_pos hw hh)]
    simp
  · obtain ⟨b, rfl⟩ : ∃ b, w = b + 1 := ⟨w - 1, by omega⟩
    obtain ⟨a, rfl⟩ : ∃ a, h = a + 1 := ⟨h - 1, by omega⟩
    have hexp : (b + 1) * (a + 1) = (b + 1) * a + b + 1 := by ring
    have he : (b + 1) * (a + 1) - 1 = (b + 1) * a + b := by omega
    rw [rects_getD _ _ p 0 0 (by omega), he, Nat.mul_add_mod,
      Nat.mod_eq_of_lt (by omega), Nat.mul_add_div (by omega),
      Nat.div_eq_of_lt (by omega)]
    simp

theorem C8_rects_wit :
    (Fire.rects 2 3 5 (0, 0)).length = 2 * 3
    ∧ (Fire.rects 2 3 5 (0, 0)).getD 3 (0, 0, 0, 0)
        = (0 + 3 % 2 * 5, 0 + 3 / 2 * 5, 5, 5)
    ∧ (Fire.rects 2 3 5 (0, 0)).getD 0 (0, 0, 0, 0) = (0, 0, 5, 5)
    ∧ (Fire.rects 2 3 5 (0, 0)).getD (2 * 3 - 1) (0, 0, 0, 0)
        = ((2 - 1) * 5, (3 - 1) * 5, 5, 5) :=
  ⟨(C8_rects 2 3 5 0 0 (by decide) (by decide) (by decide)).1,
   (C8_rects 2 3 5 0 0 (by decide) (by decide) (by decide)).2.1 3 (by decide),
   (C8_rects 2 3 5 0 0 (by decide) (by decide) (by decide)).2.2.1,
   (C8_rects 2 3 5 0 0 (by decide) (by decide) (by decide)).2.2.2⟩

/-- C9: `increase()` and `decrease()` mutate only the bottom row: every cell
outside the bottom row is unchanged by either call; each mutated cell is
clamped at 36 by `increase()` and at 0 by `decrease()`. -/
theorem C9_bottom_row_only (f : Fire) (draws : ℕ → ℤ)
    (hw : 0 < f.width) (hh : 0 < f.height)
    (hlen : f.pixels.length = f.width * f.height) :
    (∀ j, j < (f.height - 1) * f.width →
        (f.increase draws).pixels.getD j 0 = f.pixels.getD j 0
      ∧ (f.decrease draws).pixels.getD j 0 = f.pixels.getD j 0)
    ∧ (∀ i, 1 ≤ i → i ≤ f.width →
        (f.increase draws).pixels.getD (f.pixels.length - i) 0 ≤ 36
      ∧ 0 ≤ (f.decrease draws).pixels.getD (f.pixels.length - i) 0) := by
  have hsub : (f.height - 1) * f.width = f.height * f.width - 1 * f.width :=
    Nat.sub_mul f.height 1 f.width
  have hcomm : f.width * f.height = f.height * f.width := Nat.mul_comm _ _
  have hwh : f.width ≤ f.height * f.width := Nat.le_mul_of_pos_left f.width hh
  constructor
  · intro j hj
    exact ⟨increaseLoop_getD_lt draws f.pixels (by omega),
      decreaseLoop_getD_lt draws f.pixels (by omega)⟩
  · intro i h1 h2
    constructor
    · show (increaseLoop draws f.pixels f.width).getD (f.pixels.length - i) 0 ≤ 36
      rw [increaseLoop_getD_at draws f.pixels h1 h2 (by omega)]
      exact min_le_right _ _
    · show 0 ≤ (decreaseLoop draws f.pixels f.width).getD (f.pixels.length - i) 0
      rw [decreaseLoop_getD_at draws f.pixels h1 h2 (by omega)]
      exact le_max_right _ _

theorem C9_bottom_row_only_wit :
    (((Fire.mk 2 2 5 [(1 : ℤ), 2, 3, 4]).increase fun _ => 5).pixels.getD 0 0
        = ([(1 : ℤ), 2, 3, 4]).getD 0 0
      ∧ ((Fire.mk 2 2 5 [(1 : ℤ), 2, 3, 4]).decrease fun _ => 5).pixels.getD 0 0
        = ([(1 : ℤ), 2, 3, 4]).getD 0 0)
    ∧ (((Fire.mk 2 2 5 [(1 : ℤ), 2, 3, 4]).increase fun _ => 5).pixels.getD
          (([(1 : ℤ), 2, 3, 4]).length - 1) 0 ≤ 36
      ∧ 0 ≤ ((Fire.mk 2 2 5 [(1 : ℤ), 2, 3, 4]).decrease fun _ => 5).pixels.getD
          (([(1 : ℤ), 2, 3, 4]).length - 1) 0) :=
  ⟨(C9_bottom_row_only (Fire.mk 2 2 5 [(1 : ℤ), 2, 3, 4]) (fun _ => 5)
      (by decide) (by decide) (by decide)).1 0 (by decide),
   (C9_bottom_row_only (Fire.mk 2 2 5 [(1 : ℤ), 2, 3, 4]) (fun _ => 5)
      (by decide) (by decide) (by decide)).2 1 (by decide) (by decide)⟩

/-- C10: for a Fire whose cells all lie in [0, 36], `update()` never
increases the maximum intensity of the grid: every value written during the
pass is `max(b - d, 0) ≤ b` for some already-present cell value `b`. -/
theorem C10_max_nonincreasing (f : Fire) (decays : ℕ → ℕ)
    (h : ∀ v ∈ f.pixels, 0 ≤ v ∧ v ≤ 36) :
    gridMax (f.update decays).pixels ≤ gridMax f.pixels := by
  refine gridMax_le _ (gridMax_nonneg f.pixels) ?_
  exact updatePass_le f.width decays f.pixels (f.width * f.height)
    (gridMax_nonneg f.pixels) (le_gridMax f.pixels)

theorem C10_max_nonincreasing_wit :
    gridMax ((Fire.mk 2 2 5 [(5 : ℤ), 5, 36, 36]).update fun _ => 1).pixels
      ≤ gridMax [(5 : ℤ), 5, 36, 36] :=
  C10_max_nonincreasing (Fire.mk 2 2 5 [(5 : ℤ), 5, 36, 36]) (fun _ => 1) (by decide)
